import Mathlib

set_option maxHeartbeats 1000000

/-! Verification of async-simple-iterator (src/index.js and the near-duplicate
module src/unnamed/part_000): a shallow embedding of the configuration
resolver (`defaultOptions`), the decorator (`wrapIterator`) and the per-element
run of the decorated function, together with theorems about the claims of the
specification. -/

/-- JavaScript runtime values as needed by async-simple-iterator: the
primitives, plain objects as ordered key-value lists, and functions
identified by a numeric id (so that function identity is expressible). -/
inductive JSVal : Type where
  | undef : JSVal
  | null : JSVal
  | bool : Bool → JSVal
  | num : Int → JSVal
  | str : String → JSVal
  | obj : List (String × JSVal) → JSVal
  | fn : Nat → JSVal

/-- A plain JS object, as an ordered list of own enumerable key-value pairs. -/
abbrev JSObj : Type := List (String × JSVal)

/-- Property read giving the value of the first entry with key `k`
(JS objects never hold a key twice, so first and last agree in practice). -/
def getKey : JSObj → String → Option JSVal
  | [], _ => none
  | p :: rest, k => if p.1 = k then some p.2 else getKey rest k

/-- Property assignment `o[k] = v`: replace the value of an existing key
in place, or append a fresh key at the end (JS insertion order). -/
def setKey : JSObj → String → JSVal → JSObj
  | [], k, v => [(k, v)]
  | p :: rest, k, v => if p.1 = k then (k, v) :: rest else p :: setKey rest k v

/-- `utils.extend` (the shallow-merge collaborator, extend-shallow), binary
form: assign each own key of `source` onto `target` in order, later keys
overwriting earlier values. The variadic JS call `extend(t, s1, s2)` is
`extend (extend t s1) s2`. -/
def extend (target : JSObj) (source : JSObj) : JSObj :=
  source.foldl (fun acc p => setKey acc p.1 p.2) target

/-- First-defined choice on optional values (the value a merge retains). -/
def orOpt (a b : Option JSVal) : Option JSVal :=
  match a with
  | some x => some x
  | none => b

/-- Value of the last occurrence of key `k` in `o`; on duplicate-free key
lists (every real JS object) this agrees with `getKey`. -/
def lookupLast (o : JSObj) (k : String) : Option JSVal :=
  getKey o.reverse k

/-- JS property access `o.k`: the stored value, or `undefined` if absent. -/
def getv (o : JSObj) (k : String) : JSVal :=
  (getKey o k).getD JSVal.undef

/-- `typeof x === 'function'`. -/
def isFunction : JSVal → Bool
  | JSVal.fn _ => true
  | _ => false

/-- `typeof x === 'boolean'`. -/
def isBool : JSVal → Bool
  | JSVal.bool _ => true
  | _ => false

/-- JS truthiness of a value. -/
def truthy : JSVal → Bool
  | JSVal.undef => false
  | JSVal.null => false
  | JSVal.bool b => b
  | JSVal.num n => n != 0
  | JSVal.str s => s != ""
  | JSVal.obj _ => true
  | JSVal.fn _ => true

def settleKey : String := "settle"

def contextKey : String := "context"

def beforeEachKey : String := "beforeEach"

def afterEachKey : String := "afterEach"

def errorKey : String := "error"

/-- The `settle` coercion of `defaultOptions` (src/index.js line 79,
src/unnamed/part_000 line 69): `typeof settle === 'boolean' ? !!settle : false`.
Takes the merged value (`none` when the key is absent, which behaves as
`undefined` and coerces to `false`). -/
def coerceSettle : Option JSVal → JSVal
  | some (JSVal.bool b) => JSVal.bool b
  | _ => JSVal.bool false

/-- The merge step of `defaultOptions`:
`utils.extend({settle: false}, this.options, options)` — built-in default as
base, the instance's existing options over it, the supplied options over both
(an absent argument merges nothing, like `undefined` in JS). -/
def defaultOptionsMerge (existing : JSObj) (incoming : Option JSObj) : JSObj :=
  extend (extend [(settleKey, JSVal.bool false)] existing) (incoming.getD [])

/-- `defaultOptions` (src/index.js lines 74-82, src/unnamed/part_000 lines
67-72): merge the built-in default `{settle: false}`, the instance's existing
options and the supplied options, then force `settle` to a strict boolean.
The `emitter` default of src/index.js is the external observable-subscription
collaborator, modelled by the listener lists of `AsyncSimpleIterator` below
rather than as an options entry. -/
def defaultOptions (existing : JSObj) (incoming : Option JSObj) : JSObj :=
  setKey (defaultOptionsMerge existing incoming) settleKey
    (coerceSettle (getKey (defaultOptionsMerge existing incoming) settleKey))

/-- State of one `AsyncSimpleIterator` instance: its current options and the
listeners registered on the three named slots of its subscription facility
(the external emitter collaborator), in registration order. -/
structure AsyncSimpleIterator : Type where
  options : JSObj
  beforeEachListeners : List JSVal
  afterEachListeners : List JSVal
  errorListeners : List JSVal

/-- `new AsyncSimpleIterator(options)` (src/index.js lines 52-62): resolve the
default options; the emitter starts with no listeners. -/
def construct (options : Option JSObj) : AsyncSimpleIterator :=
  { options := defaultOptions [] options
    beforeEachListeners := []
    afterEachListeners := []
    errorListeners := [] }

/-- Entries a JS value contributes when passed to the shallow-merge
collaborator: a plain object contributes its own keys, any other value
contributes none (non-object sources are skipped). -/
def entriesOf : JSVal → JSObj
  | JSVal.obj o => o
  | _ => []

/-- First round of the hook-registration loop of `wrapIterator`
(src/index.js lines 151-160, src/unnamed/part_000 lines 135-143): if the
resolved `beforeEach` option is a function, `this.on('beforeEach', fn)`
appends it to that slot's listeners (the collaborator's `on` is additive,
in registration order). -/
def registerHook1 (inst : AsyncSimpleIterator) : AsyncSimpleIterator :=
  if isFunction (getv inst.options beforeEachKey)
    then { inst with
            beforeEachListeners := inst.beforeEachListeners ++ [getv inst.options beforeEachKey] }
    else inst

/-- Second round of the hook-registration loop: the `afterEach` slot. -/
def registerHook2 (inst : AsyncSimpleIterator) : AsyncSimpleIterator :=
  if isFunction (getv inst.options afterEachKey)
    then { inst with
            afterEachListeners := inst.afterEachListeners ++ [getv inst.options afterEachKey] }
    else inst

/-- Third round of the hook-registration loop: the `error` slot. -/
def registerHook3 (inst : AsyncSimpleIterator) : AsyncSimpleIterator :=
  if isFunction (getv inst.options errorKey)
    then { inst with
            errorListeners := inst.errorListeners ++ [getv inst.options errorKey] }
    else inst

/-- The hook-registration loop of `wrapIterator`, unrolled over
`['beforeEach', 'afterEach', 'error']`. -/
def registerHooks (inst : AsyncSimpleIterator) : AsyncSimpleIterator :=
  registerHook3 (registerHook2 (registerHook1 inst))

def iteratorTypeError : String := "async-simple-iterator: expect `iterator` to be function"

/-- The options update of `wrapIterator` (src/index.js line 148):
`this.options = options ? utils.extend({}, opts, options) : opts`. -/
def mergeCallOptions (opts : JSObj) (options : Option JSObj) : JSObj :=
  match options with
  | some o => extend (extend [] opts) o
  | none => opts

/-- The context computation of `wrapIterator` (src/index.js line 147):
`options ? utils.extend({}, opts.context, options.context) : opts.context`. -/
def mergeContext (opts : JSObj) (options : Option JSObj) : JSVal :=
  match options with
  | some o =>
      JSVal.obj (extend (extend [] (entriesOf (getv opts contextKey)))
        (entriesOf (getv o contextKey)))
  | none => getv opts contextKey

/-- `wrapIterator(iterator, options)` (src/index.js lines 142-163): throw a
`TypeError` (here `Except.error`) if `iterator` is not a function; otherwise
merge the call options into the instance options, store the explicitly merged
`context` (`this.options.context = ctx`), register any function-valued hooks,
and succeed with the updated instance state. The returned decorated
function's body is `utils.iteratorFactory`, modelled separately as
`decoratedRun`. -/
def wrapIterator (inst : AsyncSimpleIterator) (iterator : JSVal) (options : Option JSObj) :
    Except String AsyncSimpleIterator :=
  if isFunction iterator then
    Except.ok (registerHooks { inst with
      options := setKey (mergeCallOptions inst.options options) contextKey
        (mergeContext inst.options options) })
  else
    Except.error iteratorTypeError

/-- A repeated `wrapIterator` call with no options argument, viewed as a state
transformer (the thrown-`TypeError` case leaves the state unchanged). -/
def wrapNoOpts (it : JSVal) (inst : AsyncSimpleIterator) : AsyncSimpleIterator :=
  match wrapIterator inst it none with
  | Except.ok i => i
  | Except.error _ => inst

/-- `app.options.settle` read as a condition by the decorated function. -/
def settleOf (inst : AsyncSimpleIterator) : Bool :=
  truthy (getv inst.options settleKey)

/-- Observable effects of one invocation of the decorated function, in order:
a `beforeEach` listener fired, the work function started, an `afterEach`
listener fired, an `error` listener fired, the outer completion called.
Listener-firing events carry the listener so registration order is visible. -/
inductive Event : Type where
  | beforeEachFire : JSVal → JSVal → JSVal → Event
  | workStart : JSVal → JSVal → Event
  | afterEachFire : JSVal → Option JSVal → JSVal → JSVal → JSVal → Event
  | errorFire : JSVal → JSVal → JSVal → JSVal → JSVal → Event
  | completionCall : Option JSVal → JSVal → Event

/-- Modelled from the spec: the tail of the decorated function's inner
completion. `utils.iteratorFactory` (the body of the decorated function) is
loaded from `./utils`, which is not under src/, so it is modelled from spec
section 4.2 step 3: on a non-null error fire the `error` listeners with
`(err, res, value, key)` and then call the outer completion with
`(null, res)` when settle mode is on and with `(err, res)` otherwise; on a
null error call the outer completion with `(null, res)` unconditionally. -/
def completionPart (inst : AsyncSimpleIterator) (err : Option JSVal) (res v k : JSVal) :
    List Event :=
  match err with
  | some e =>
      inst.errorListeners.map (fun f => Event.errorFire f e res v k)
        ++ [Event.completionCall (if settleOf inst then none else some e) res]
  | none => [Event.completionCall none res]

/-- Modelled from the spec: the decorated function's inner completion
(spec section 4.2 step 3b): fire the `afterEach` listeners with
`(err, res, value, key)` in registration order, then proceed per the error
branch of `completionPart`. -/
def innerCompletion (inst : AsyncSimpleIterator) (err : Option JSVal) (res v k : JSVal) :
    List Event :=
  inst.afterEachListeners.map (fun f => Event.afterEachFire f err res v k)
    ++ completionPart inst err res v k

/-- Modelled from the spec: the trace of one invocation of the decorated
function produced by `utils.iteratorFactory` (not under src/; spec section
4.2 step 3): fire every `beforeEach` listener with `(value, key)` in
registration order, invoke the work function, then run the inner completion
on the `(error_or_null, result)` pair the work function delivers. `work`
gives that pair for each `(value, key)`; per spec section 5 the work function
calls its completion exactly once, so the pair is a function of the element. -/
def decoratedRun (inst : AsyncSimpleIterator) (work : JSVal → JSVal → Option JSVal × JSVal)
    (v k : JSVal) : List Event :=
  inst.beforeEachListeners.map (fun f => Event.beforeEachFire f v k)
    ++ Event.workStart v k :: innerCompletion inst (work v k).1 (work v k).2 v k

def isBeforeEachFire : Event → Bool
  | Event.beforeEachFire _ _ _ => true
  | _ => false

def isWorkStart : Event → Bool
  | Event.workStart _ _ => true
  | _ => false

def isAfterEachFire : Event → Bool
  | Event.afterEachFire _ _ _ _ _ => true
  | _ => false

def isErrorFire : Event → Bool
  | Event.errorFire _ _ _ _ _ => true
  | _ => false

def isCompletionCall : Event → Bool
  | Event.completionCall _ _ => true
  | _ => false

/-- Every event of `t` satisfying `p` is at a strictly earlier position than
every event of `t` satisfying `q`. -/
def firesBefore (t : List Event) (p q : Event → Bool) : Prop :=
  ∀ i j, ∀ hi : i < t.length, ∀ hj : j < t.length,
    p (t.get ⟨i, hi⟩) = true → q (t.get ⟨j, hj⟩) = true → i < j

/-- Key lists without duplicates (every real JS object). -/
def NodupKeys (o : JSObj) : Prop := (o.map Prod.fst).Nodup

/-- A concrete work function that reports an error for every element, used to
evaluate the theorems on explicit inputs. -/
def cWork : JSVal → JSVal → Option JSVal × JSVal :=
  fun _ _ => (some (JSVal.str ("boom")), JSVal.undef)

/-- A concrete settle-mode instance with one `afterEach` and one `error`
listener. -/
def cInstSettleTrue : AsyncSimpleIterator :=
  { options := [(settleKey, JSVal.bool true)]
    beforeEachListeners := []
    afterEachListeners := [JSVal.fn 6]
    errorListeners := [JSVal.fn 7] }

/-- The same concrete instance with settle mode off. -/
def cInstSettleFalse : AsyncSimpleIterator :=
  { options := [(settleKey, JSVal.bool false)]
    beforeEachListeners := []
    afterEachListeners := [JSVal.fn 6]
    errorListeners := [JSVal.fn 7] }

/-- The state after `wrapIterator` on a fresh instance with a `beforeEach`
hook option (computed for the concrete evaluation of the theorems). -/
def w7inst : AsyncSimpleIterator :=
  { options := [(settleKey, JSVal.bool false), (beforeEachKey, JSVal.fn 3), (contextKey, JSVal.obj [])]
    beforeEachListeners := [JSVal.fn 3]
    afterEachListeners := []
    errorListeners := [] }

/-- Concrete options supplying all three hooks. -/
def c10o : JSObj :=
  [(beforeEachKey, JSVal.fn 1), (afterEachKey, JSVal.fn 2), (errorKey, JSVal.fn 3)]

/-- The state after `wrapIterator (construct none) (JSVal.fn 0) (some c10o)`. -/
def c10inst1 : AsyncSimpleIterator :=
  { options := [(settleKey, JSVal.bool false), (beforeEachKey, JSVal.fn 1),
      (afterEachKey, JSVal.fn 2), (errorKey, JSVal.fn 3), (contextKey, JSVal.obj [])]
    beforeEachListeners := [JSVal.fn 1]
    afterEachListeners := [JSVal.fn 2]
    errorListeners := [JSVal.fn 3] }

/-- The state after `wrapIterator (construct none) (JSVal.fn 0)` with a
non-boolean `settle` option. -/
def c3inst1 : AsyncSimpleIterator :=
  { options := [(settleKey, JSVal.num 1), (contextKey, JSVal.obj [])]
    beforeEachListeners := []
    afterEachListeners := []
    errorListeners := [] }

/-- The state after `wrapIterator (construct none) (JSVal.fn 0) none`. -/
def c3inst2 : AsyncSimpleIterator :=
  { options := [(settleKey, JSVal.bool false), (contextKey, JSVal.undef)]
    beforeEachListeners := []
    afterEachListeners := []
    errorListeners := [] }

/-! Lemmas about the object operations. -/

theorem orOpt_none_right (a : Option JSVal) : orOpt a none = a := by
  cases a <;> rfl

theorem getKey_setKey (o : JSObj) (k : String) (v : JSVal) (k' : String) :
    getKey (setKey o k v) k' = if k' = k then some v else getKey o k' := by
  induction o with
  | nil =>
      simp only [setKey, getKey]
      by_cases h : k' = k
      · subst h; simp
      · rw [if_neg (fun hh => h hh.symm), if_neg h]
  | cons p rest ih =>
      by_cases hp : p.1 = k
      · simp only [setKey, if_pos hp, getKey]
        by_cases h : k' = k
        · subst h; simp
        · rw [if_neg (fun hh => h hh.symm), if_neg h,
            if_neg (fun hh => h (hp.symm.trans hh).symm)]
      · simp only [setKey, if_neg hp, getKey, ih]
        by_cases h1 : p.1 = k'
        · have h2 : ¬ (k' = k) := fun hh => hp (h1.trans hh)
          rw [if_pos h1, if_neg h2, if_pos h1]
        · by_cases h2 : k' = k
          · rw [if_neg h1, if_pos h2, if_pos h2]
          · rw [if_neg h1, if_neg h2, if_neg h2, if_neg h1]

theorem getKey_append (a b : JSObj) (k : String) :
    getKey (a ++ b) k = orOpt (getKey a k) (getKey b k) := by
  induction a with
  | nil => simp [getKey, orOpt]
  | cons p rest ih =>
      by_cases h : p.1 = k
      · simp [getKey, h, orOpt]
      · simp [getKey, h, orOpt, ih]

theorem lookupLast_cons (p : String × JSVal) (rest : JSObj) (k : String) :
    lookupLast (p :: rest) k
      = orOpt (lookupLast rest k) (if p.1 = k then some p.2 else none) := by
  simp only [lookupLast, List.reverse_cons, getKey_append]
  by_cases h : p.1 = k <;> simp [getKey, h]

theorem getKey_extend (s t : JSObj) (k : String) :
    getKey (extend t s) k = orOpt (lookupLast s k) (getKey t k) := by
  induction s generalizing t with
  | nil => simp [extend, lookupLast, getKey, orOpt]
  | cons p rest ih =>
      have e : extend t (p :: rest) = extend (setKey t p.1 p.2) rest := rfl
      rw [e, ih, getKey_setKey, lookupLast_cons]
      cases hL : lookupLast rest k with
      | some x => simp [orOpt]
      | none =>
          simp only [orOpt]
          by_cases h : p.1 = k
          · rw [if_pos h, if_pos h.symm]
          · rw [if_neg h, if_neg (fun hh => h hh.symm)]

theorem mem_keys_setKey (o : JSObj) (k : String) (v : JSVal) (x : String) :
    x ∈ (setKey o k v).map Prod.fst ↔ x ∈ o.map Prod.fst ∨ x = k := by
  induction o with
  | nil => simp [setKey]
  | cons p rest ih =>
      by_cases h : p.1 = k
      · simp only [setKey]
        rw [if_pos h]
        simp only [List.map_cons, List.mem_cons]
        rw [h]
        tauto
      · simp only [setKey]
        rw [if_neg h]
        simp only [List.map_cons, List.mem_cons, ih]
        tauto

theorem nodupKeys_setKey (o : JSObj) (k : String) (v : JSVal) (h : NodupKeys o) :
    NodupKeys (setKey o k v) := by
  induction o with
  | nil => simp [setKey, NodupKeys]
  | cons p rest ih =>
      simp only [NodupKeys, List.map_cons, List.nodup_cons] at h
      by_cases hp : p.1 = k
      · simp only [setKey, if_pos hp, NodupKeys, List.map_cons, List.nodup_cons]
        exact ⟨hp ▸ h.1, h.2⟩
      · simp only [setKey, if_neg hp, NodupKeys, List.map_cons, List.nodup_cons]
        refine ⟨fun hmem => ?_, ih h.2⟩
        rcases (mem_keys_setKey rest k v p.1).mp hmem with hm | he
        · exact h.1 hm
        · exact hp he

theorem nodupKeys_extend (t s : JSObj) (h : NodupKeys t) : NodupKeys (extend t s) := by
  induction s generalizing t with
  | nil => exact h
  | cons p rest ih =>
      have e : extend t (p :: rest) = extend (setKey t p.1 p.2) rest := rfl
      rw [e]
      exact ih _ (nodupKeys_setKey _ _ _ h)

theorem getKey_eq_none_of_not_mem (o : JSObj) (k : String) (h : k ∉ o.map Prod.fst) :
    getKey o k = none := by
  induction o with
  | nil => rfl
  | cons p rest ih =>
      simp only [List.map_cons, List.mem_cons] at h
      push_neg at h
      have h1 : ¬ (p.1 = k) := fun hh => h.1 hh.symm
      simp [getKey, h1, ih h.2]

theorem getKey_reverse (o : JSObj) (k : String) (h : NodupKeys o) :
    getKey o.reverse k = getKey o k := by
  induction o with
  | nil => rfl
  | cons p rest ih =>
      simp only [NodupKeys, List.map_cons, List.nodup_cons] at h
      rw [List.reverse_cons, getKey_append]
      by_cases hp : p.1 = k
      · have hr : getKey rest.reverse k = none := by
          apply getKey_eq_none_of_not_mem
          rw [List.map_reverse, List.mem_reverse]
          exact fun hm => h.1 (hp ▸ hm)
        rw [hr]
        simp [orOpt, getKey, hp]
      · rw [ih h.2]
        have h0 : getKey [p] k = none := by simp [getKey, hp]
        rw [h0, orOpt_none_right]
        simp [getKey, hp]

theorem lookupLast_eq_getKey (o : JSObj) (k : String) (h : NodupKeys o) :
    lookupLast o k = getKey o k :=
  getKey_reverse o k h

/-! Lemmas about the configuration resolver. -/

theorem coerceSettle_coerce (x : Option JSVal) :
    coerceSettle (some (coerceSettle x)) = coerceSettle x := by
  cases x with
  | none => rfl
  | some v => cases v <;> rfl

theorem coerceSettle_orOpt_default (x : Option JSVal) :
    coerceSettle (orOpt x (some (JSVal.bool false))) = coerceSettle x := by
  cases x with
  | none => rfl
  | some v => rfl

theorem getKey_defaultOptionsMerge (ex : JSObj) (inc : Option JSObj) (k : String) :
    getKey (defaultOptionsMerge ex inc) k
      = orOpt (lookupLast (inc.getD []) k)
          (orOpt (lookupLast ex k) (getKey [(settleKey, JSVal.bool false)] k)) := by
  unfold defaultOptionsMerge
  rw [getKey_extend, getKey_extend]

theorem getKey_defaultOptions (ex : JSObj) (inc : Option JSObj) (k : String) :
    getKey (defaultOptions ex inc) k =
      if k = settleKey
      then some (coerceSettle (orOpt (lookupLast (inc.getD []) settleKey)
        (orOpt (lookupLast ex settleKey) (some (JSVal.bool false)))))
      else orOpt (lookupLast (inc.getD []) k) (lookupLast ex k) := by
  unfold defaultOptions
  rw [getKey_setKey]
  by_cases h : k = settleKey
  · rw [if_pos h, if_pos h, getKey_defaultOptionsMerge]
    have hbase : getKey [(settleKey, JSVal.bool false)] settleKey = some (JSVal.bool false) := by
      simp [getKey]
    rw [hbase]
  · rw [if_neg h, if_neg h, getKey_defaultOptionsMerge]
    have hne : ¬ (settleKey = k) := fun hh => h hh.symm
    have hbase : getKey [(settleKey, JSVal.bool false)] k = none := by
      simp [getKey, hne]
    rw [hbase, orOpt_none_right]

theorem nodupKeys_defaultOptions (ex : JSObj) (inc : Option JSObj) :
    NodupKeys (defaultOptions ex inc) := by
  unfold defaultOptions defaultOptionsMerge
  apply nodupKeys_setKey
  apply nodupKeys_extend
  apply nodupKeys_extend
  simp [NodupKeys]

/-! Lemmas about the decorator's state update. -/

theorem registerHooks_spec (i : AsyncSimpleIterator) :
    (registerHooks i).options = i.options
    ∧ (registerHooks i).beforeEachListeners = i.beforeEachListeners
        ++ (if isFunction (getv i.options beforeEachKey)
            then [getv i.options beforeEachKey] else [])
    ∧ (registerHooks i).afterEachListeners = i.afterEachListeners
        ++ (if isFunction (getv i.options afterEachKey)
            then [getv i.options afterEachKey] else [])
    ∧ (registerHooks i).errorListeners = i.errorListeners
        ++ (if isFunction (getv i.options errorKey)
            then [getv i.options errorKey] else []) := by
  unfold registerHooks registerHook1 registerHook2 registerHook3
  by_cases h1 : isFunction (getv i.options beforeEachKey) = true <;>
    by_cases h2 : isFunction (getv i.options afterEachKey) = true <;>
      by_cases h3 : isFunction (getv i.options errorKey) = true <;>
        simp [h1, h2, h3]

theorem wrapIterator_ok (inst : AsyncSimpleIterator) (it : JSVal) (options : Option JSObj)
    (h : isFunction it = true) :
    wrapIterator inst it options = Except.ok (registerHooks { inst with
      options := setKey (mergeCallOptions inst.options options) contextKey
        (mergeContext inst.options options) }) := by
  unfold wrapIterator
  rw [if_pos h]

theorem isFunction_of_wrapIterator_ok (inst : AsyncSimpleIterator) (it : JSVal)
    (options : Option JSObj) (inst' : AsyncSimpleIterator)
    (h : wrapIterator inst it options = Except.ok inst') :
    isFunction it = true := by
  cases hf : isFunction it with
  | true => rfl
  | false =>
      unfold wrapIterator at h
      rw [if_neg (by simp [hf])] at h
      exact Except.noConfusion h

theorem wrapIterator_ok_dest (inst : AsyncSimpleIterator) (it : JSVal)
    (options : Option JSObj) (inst' : AsyncSimpleIterator)
    (h : wrapIterator inst it options = Except.ok inst') :
    inst' = registerHooks { inst with
      options := setKey (mergeCallOptions inst.options options) contextKey
        (mergeContext inst.options options) } := by
  rw [wrapIterator_ok inst it options (isFunction_of_wrapIterator_ok inst it options inst' h)] at h
  exact (Except.ok.inj h).symm

theorem getKey_mergeCallOptions_some (opts o : JSObj) (k : String) :
    getKey (mergeCallOptions opts (some o)) k
      = orOpt (lookupLast o k) (lookupLast opts k) := by
  show getKey (extend (extend [] opts) o) k = _
  rw [getKey_extend, getKey_extend]
  have h0 : getKey ([] : JSObj) k = none := rfl
  rw [h0, orOpt_none_right]

theorem mergeCallOptions_none (opts : JSObj) : mergeCallOptions opts none = opts := rfl

theorem settleKey_ne_contextKey : ¬ (settleKey = contextKey) := by decide

theorem beforeEachKey_ne_contextKey : ¬ (beforeEachKey = contextKey) := by decide

theorem afterEachKey_ne_contextKey : ¬ (afterEachKey = contextKey) := by decide

theorem errorKey_ne_contextKey : ¬ (errorKey = contextKey) := by decide

theorem getKey_wrapped_options (inst : AsyncSimpleIterator) (it : JSVal)
    (options : Option JSObj) (inst' : AsyncSimpleIterator)
    (h : wrapIterator inst it options = Except.ok inst') (k : String)
    (hk : ¬ (k = contextKey)) :
    getKey inst'.options k = getKey (mergeCallOptions inst.options options) k := by
  rw [wrapIterator_ok_dest inst it options inst' h, (registerHooks_spec _).1]
  show getKey (setKey (mergeCallOptions inst.options options) contextKey
    (mergeContext inst.options options)) k = _
  rw [getKey_setKey, if_neg hk]

theorem wrapped_listeners (inst : AsyncSimpleIterator) (it : JSVal)
    (options : Option JSObj) (inst' : AsyncSimpleIterator)
    (h : wrapIterator inst it options = Except.ok inst') :
    inst'.beforeEachListeners = inst.beforeEachListeners
        ++ (if isFunction (getv inst'.options beforeEachKey)
            then [getv inst'.options beforeEachKey] else [])
    ∧ inst'.afterEachListeners = inst.afterEachListeners
        ++ (if isFunction (getv inst'.options afterEachKey)
            then [getv inst'.options afterEachKey] else [])
    ∧ inst'.errorListeners = inst.errorListeners
        ++ (if isFunction (getv inst'.options errorKey)
            then [getv inst'.options errorKey] else []) := by
  have hd := wrapIterator_ok_dest inst it options inst' h
  have hs := registerHooks_spec { inst with
      options := setKey (mergeCallOptions inst.options options) contextKey
        (mergeContext inst.options options) }
  refine ⟨?_, ?_, ?_⟩
  · rw [hd, hs.1, hs.2.1]
  · rw [hd, hs.1, hs.2.2.1]
  · rw [hd, hs.1, hs.2.2.2]

/-! Lemmas about the trace of one invocation of the decorated function. -/

theorem before_seg_classify (l : List JSVal) (v k : JSVal) :
    ∀ x ∈ l.map (fun f => Event.beforeEachFire f v k),
      isWorkStart x = false ∧ isAfterEachFire x = false
        ∧ isErrorFire x = false ∧ isCompletionCall x = false := by
  intro x hx
  rcases List.mem_map.mp hx with ⟨f, -, rfl⟩
  exact ⟨rfl, rfl, rfl, rfl⟩

theorem after_seg_classify (l : List JSVal) (err : Option JSVal) (res v k : JSVal) :
    ∀ x ∈ l.map (fun f => Event.afterEachFire f err res v k),
      isBeforeEachFire x = false ∧ isWorkStart x = false
        ∧ isErrorFire x = false ∧ isCompletionCall x = false := by
  intro x hx
  rcases List.mem_map.mp hx with ⟨f, -, rfl⟩
  exact ⟨rfl, rfl, rfl, rfl⟩

theorem error_seg_classify (l : List JSVal) (e res v k : JSVal) :
    ∀ x ∈ l.map (fun f => Event.errorFire f e res v k),
      isBeforeEachFire x = false ∧ isWorkStart x = false
        ∧ isAfterEachFire x = false ∧ isCompletionCall x = false := by
  intro x hx
  rcases List.mem_map.mp hx with ⟨f, -, rfl⟩
  exact ⟨rfl, rfl, rfl, rfl⟩

theorem firesBefore_append (l₁ l₂ : List Event) (p q : Event → Bool)
    (hp : ∀ x ∈ l₂, p x = false) (hq : ∀ x ∈ l₁, q x = false) :
    firesBefore (l₁ ++ l₂) p q := by
  intro i j hi hj hpi hqj
  by_cases h1 : i < l₁.length
  · by_cases h2 : j < l₁.length
    · exfalso
      have hg : (l₁ ++ l₂).get ⟨j, hj⟩ = l₁.get ⟨j, h2⟩ := List.get_append j h2
      have hfalse := hq (l₁.get ⟨j, h2⟩) (List.get_mem l₁ j h2)
      rw [hg, hfalse] at hqj
      exact Bool.noConfusion hqj
    · exact lt_of_lt_of_le h1 (Nat.le_of_not_lt h2)
  · exfalso
    have h1' := Nat.le_of_not_lt h1
    have hlen : i - l₁.length < l₂.length := by
      have := hi
      rw [List.length_append] at this
      omega
    have hg : (l₁ ++ l₂).get ⟨i, hi⟩ = l₂.get ⟨i - l₁.length, hlen⟩ :=
      List.get_append_right l₁ l₂ h1'
    have hfalse := hp (l₂.get ⟨i - l₁.length, hlen⟩)
      (List.get_mem l₂ (i - l₁.length) hlen)
    rw [hg, hfalse] at hpi
    exact Bool.noConfusion hpi

theorem decoratedRun_err_eq (inst : AsyncSimpleIterator)
    (work : JSVal → JSVal → Option JSVal × JSVal) (v k e r : JSVal)
    (hw : work v k = (some e, r)) :
    decoratedRun inst work v k
      = (inst.beforeEachListeners.map (fun f => Event.beforeEachFire f v k)
          ++ Event.workStart v k
            :: (inst.afterEachListeners.map (fun f => Event.afterEachFire f (some e) r v k)
              ++ inst.errorListeners.map (fun f => Event.errorFire f e r v k)))
        ++ [Event.completionCall (if settleOf inst then none else some e) r] := by
  simp [decoratedRun, innerCompletion, completionPart, hw, List.append_assoc]

theorem decoratedRun_noerr_eq (inst : AsyncSimpleIterator)
    (work : JSVal → JSVal → Option JSVal × JSVal) (v k r : JSVal)
    (hw : work v k = (none, r)) :
    decoratedRun inst work v k
      = (inst.beforeEachListeners.map (fun f => Event.beforeEachFire f v k)
          ++ Event.workStart v k
            :: inst.afterEachListeners.map (fun f => Event.afterEachFire f none r v k))
        ++ [Event.completionCall none r] := by
  simp [decoratedRun, innerCompletion, completionPart, hw, List.append_assoc]

/-! The claims. -/

/-- C5: for every first argument that is not a function value, `wrapIterator`
fails with the `TypeError` synchronously at decoration time — the error is the
immediate result of the call, produced before any settings merge, hook
registration or hook firing (no updated instance state exists), and not
through a callback. -/
theorem wrapIterator_nonfunction_throws (inst : AsyncSimpleIterator) (it : JSVal)
    (wopts : Option JSObj) (h : isFunction it = false) :
    wrapIterator inst it wopts = Except.error iteratorTypeError := by
  unfold wrapIterator
  rw [if_neg (by simp [h])]

/-- Witness for C5 at a concrete non-function argument. -/
theorem wrapIterator_nonfunction_throws_witness :
    isFunction (JSVal.num 5) = false
    ∧ wrapIterator (construct none) (JSVal.num 5) none = Except.error iteratorTypeError :=
  ⟨rfl, wrapIterator_nonfunction_throws (construct none) (JSVal.num 5) none rfl⟩

/-- C6: the configuration resolver merges key-by-key with later sources
winning — the built-in default `{settle: false}` is the base, the existing
instance options override it, and the call-supplied options override both;
away from `settle` the resolved value is exactly the winning source's value
(nested mapping values are replaced wholesale, never merged recursively),
and at `settle` the winning value is coerced to a strict boolean. -/
theorem defaultOptions_merge_key_by_key (ex inc : JSObj) (k : String)
    (hk : ¬ (k = settleKey)) :
    getKey (defaultOptions ex (some inc)) k = orOpt (lookupLast inc k) (lookupLast ex k)
    ∧ getKey (defaultOptions ex (some inc)) settleKey
        = some (coerceSettle (orOpt (lookupLast inc settleKey)
            (orOpt (lookupLast ex settleKey) (some (JSVal.bool false))))) := by
  constructor
  · rw [getKey_defaultOptions, if_neg hk]
    rfl
  · rw [getKey_defaultOptions, if_pos rfl]
    rfl

/-- Witness for C6 at concrete inputs where both sources hold a nested
mapping under the same key: the call-supplied mapping wins wholesale. -/
theorem defaultOptions_merge_key_by_key_witness :
    ¬ (beforeEachKey = settleKey)
    ∧ (getKey (defaultOptions [(beforeEachKey, JSVal.obj [(contextKey, JSVal.num 8)])]
          (some [(beforeEachKey, JSVal.obj [(settleKey, JSVal.num 7)])])) beforeEachKey
        = orOpt (lookupLast [(beforeEachKey, JSVal.obj [(settleKey, JSVal.num 7)])] beforeEachKey)
            (lookupLast [(beforeEachKey, JSVal.obj [(contextKey, JSVal.num 8)])] beforeEachKey)
      ∧ getKey (defaultOptions [(beforeEachKey, JSVal.obj [(contextKey, JSVal.num 8)])]
          (some [(beforeEachKey, JSVal.obj [(settleKey, JSVal.num 7)])])) settleKey
        = some (coerceSettle (orOpt
            (lookupLast [(beforeEachKey, JSVal.obj [(settleKey, JSVal.num 7)])] settleKey)
            (orOpt (lookupLast [(beforeEachKey, JSVal.obj [(contextKey, JSVal.num 8)])] settleKey)
              (some (JSVal.bool false))))))
    ∧ getKey (defaultOptions [(beforeEachKey, JSVal.obj [(contextKey, JSVal.num 8)])]
          (some [(beforeEachKey, JSVal.obj [(settleKey, JSVal.num 7)])])) beforeEachKey
        = some (JSVal.obj [(settleKey, JSVal.num 7)]) :=
  ⟨by decide,
   defaultOptions_merge_key_by_key [(beforeEachKey, JSVal.obj [(contextKey, JSVal.num 8)])]
     [(beforeEachKey, JSVal.obj [(settleKey, JSVal.num 7)])] beforeEachKey (by decide),
   rfl⟩

/-- C9: the configuration resolver is idempotent with respect to its
observable result — it is a pure function of its two inputs (in this
embedding, determinism on identical inputs is definitional), and re-running
it on its own stored output (the side effect `this.options = options`) with
the same supplied options yields settings deep-equal on every field. -/
theorem defaultOptions_idempotent (ex : JSObj) (inc : Option JSObj) (k : String) :
    getKey (defaultOptions (defaultOptions ex inc) inc) k
      = getKey (defaultOptions ex inc) k := by
  have hnd := nodupKeys_defaultOptions ex inc
  rw [getKey_defaultOptions, getKey_defaultOptions]
  by_cases h : k = settleKey
  · rw [if_pos h, if_pos h, lookupLast_eq_getKey _ _ hnd,
      getKey_defaultOptions ex inc settleKey, if_pos rfl]
    cases hI : lookupLast (inc.getD []) settleKey with
    | some v => simp [orOpt]
    | none => simp [orOpt, coerceSettle_coerce]
  · rw [if_neg h, if_neg h, lookupLast_eq_getKey _ _ hnd,
      getKey_defaultOptions ex inc k, if_neg h]
    cases hI : lookupLast (inc.getD []) k with
    | some v => simp [orOpt]
    | none => simp [orOpt]

/-- C3 counterexample: the claim that `settle` is a strict boolean after
every `wrapIterator` call (non-boolean values forced to `false`) fails on the
concrete input `wrapIterator (construct none) (JSVal.fn 0)` with options
`{settle: 1}` — the stored `settle` is the number `1`, not a boolean. -/
theorem settle_strict_bool_cex :
    (match wrapIterator (construct none) (JSVal.fn 0) (some [(settleKey, JSVal.num 1)]) with
      | Except.ok inst => getKey inst.options settleKey
      | Except.error _ => none) = some (JSVal.num 1)
    ∧ isBool (JSVal.num 1) = false
    ∧ JSVal.num 1 ≠ JSVal.bool false
    ∧ JSVal.num 1 ≠ JSVal.bool true :=
  ⟨rfl, rfl, fun h => JSVal.noConfusion h, fun h => JSVal.noConfusion h⟩

/-- C3 (amended): after construction the resolved `settle` is a strict
boolean — a supplied boolean is kept, any other supplied value is forced to
`false`. `wrapIterator`, however, merges call options without re-coercing:
with no options the stored `settle` is unchanged, and with options any
call-supplied `settle` value is stored as-is — so `settle` stays a strict
boolean after a `wrapIterator` call only when the call options omit `settle`
or supply a boolean. -/
theorem settle_strict_bool_amended (opts : Option JSObj) (inst : AsyncSimpleIterator)
    (it : JSVal) (o : JSObj) (inst₁ inst₂ : AsyncSimpleIterator)
    (h1 : wrapIterator inst it (some o) = Except.ok inst₁)
    (h2 : wrapIterator inst it none = Except.ok inst₂) :
    getKey (construct opts).options settleKey
        = some (coerceSettle (lookupLast (opts.getD []) settleKey))
    ∧ getKey inst₁.options settleKey
        = orOpt (lookupLast o settleKey) (lookupLast inst.options settleKey)
    ∧ getKey inst₂.options settleKey = getKey inst.options settleKey := by
  refine ⟨?_, ?_, ?_⟩
  · rw [show (construct opts).options = defaultOptions [] opts from rfl,
      getKey_defaultOptions, if_pos rfl]
    have h0 : lookupLast ([] : JSObj) settleKey = none := rfl
    rw [h0]
    cases hI : lookupLast (opts.getD []) settleKey with
    | some v => simp [orOpt]
    | none => simp [orOpt, coerceSettle]
  · rw [getKey_wrapped_options inst it (some o) inst₁ h1 settleKey settleKey_ne_contextKey,
      getKey_mergeCallOptions_some]
  · rw [getKey_wrapped_options inst it none inst₂ h2 settleKey settleKey_ne_contextKey,
      mergeCallOptions_none]

/-- Witness for C3 (amended) at concrete inputs: a non-boolean `settle`
supplied at construction is forced to `false`, while `wrapIterator` stores a
call-supplied `settle` (here the number `1`) as-is and keeps the stored value
when no options are passed. -/
theorem settle_strict_bool_amended_witness :
    wrapIterator (construct none) (JSVal.fn 0) (some [(settleKey, JSVal.num 1)])
        = Except.ok c3inst1
    ∧ wrapIterator (construct none) (JSVal.fn 0) none = Except.ok c3inst2
    ∧ (getKey (construct (some [(settleKey, JSVal.num 1)])).options settleKey
          = some (coerceSettle (lookupLast
              ((some [(settleKey, JSVal.num 1)] : Option JSObj).getD []) settleKey))
        ∧ getKey c3inst1.options settleKey
          = orOpt (lookupLast [(settleKey, JSVal.num 1)] settleKey)
              (lookupLast (construct none).options settleKey)
        ∧ getKey c3inst2.options settleKey = getKey (construct none).options settleKey) :=
  ⟨rfl, rfl,
   settle_strict_bool_amended (some [(settleKey, JSVal.num 1)]) (construct none)
     (JSVal.fn 0) [(settleKey, JSVal.num 1)] c3inst1 c3inst2 rfl rfl⟩

/-- C7: every successful `wrapIterator` call registers, for each of the three
hook names, the function value found under that name in the resolved settings
as one additional listener on the corresponding slot — appended after all
previously registered listeners, which are kept unchanged (and when the
resolved value is not a function, the slot is unchanged). -/
theorem wrapIterator_registers_hooks_additively (inst : AsyncSimpleIterator) (it : JSVal)
    (wopts : Option JSObj) (inst' : AsyncSimpleIterator)
    (h : wrapIterator inst it wopts = Except.ok inst') :
    inst'.beforeEachListeners = inst.beforeEachListeners
        ++ (if isFunction (getv inst'.options beforeEachKey)
            then [getv inst'.options beforeEachKey] else [])
    ∧ inst'.afterEachListeners = inst.afterEachListeners
        ++ (if isFunction (getv inst'.options afterEachKey)
            then [getv inst'.options afterEachKey] else [])
    ∧ inst'.errorListeners = inst.errorListeners
        ++ (if isFunction (getv inst'.options errorKey)
            then [getv inst'.options errorKey] else []) :=
  wrapped_listeners inst it wopts inst' h

/-- Witness for C7 at a concrete decoration call supplying a `beforeEach`
hook on a fresh instance. -/
theorem wrapIterator_registers_hooks_additively_witness :
    wrapIterator (construct none) (JSVal.fn 0) (some [(beforeEachKey, JSVal.fn 3)])
        = Except.ok w7inst
    ∧ (w7inst.beforeEachListeners = (construct none).beforeEachListeners
          ++ (if isFunction (getv w7inst.options beforeEachKey)
              then [getv w7inst.options beforeEachKey] else [])
        ∧ w7inst.afterEachListeners = (construct none).afterEachListeners
          ++ (if isFunction (getv w7inst.options afterEachKey)
              then [getv w7inst.options afterEachKey] else [])
        ∧ w7inst.errorListeners = (construct none).errorListeners
          ++ (if isFunction (getv w7inst.options errorKey)
              then [getv w7inst.options errorKey] else [])) :=
  ⟨rfl,
   wrapIterator_registers_hooks_additively (construct none) (JSVal.fn 0)
     (some [(beforeEachKey, JSVal.fn 3)]) w7inst rfl⟩

/-! Step lemmas for repeated decoration calls with no options. -/

theorem wrapNoOpts_step (it : JSVal) (hit : isFunction it = true) (i : AsyncSimpleIterator) :
    (wrapNoOpts it i).options = setKey i.options contextKey (getv i.options contextKey)
    ∧ (wrapNoOpts it i).beforeEachListeners = i.beforeEachListeners
        ++ (if isFunction (getv i.options beforeEachKey)
            then [getv i.options beforeEachKey] else [])
    ∧ (wrapNoOpts it i).afterEachListeners = i.afterEachListeners
        ++ (if isFunction (getv i.options afterEachKey)
            then [getv i.options afterEachKey] else [])
    ∧ (wrapNoOpts it i).errorListeners = i.errorListeners
        ++ (if isFunction (getv i.options errorKey)
            then [getv i.options errorKey] else []) := by
  have hw : wrapNoOpts it i = registerHooks { i with
      options := setKey i.options contextKey (getv i.options contextKey) } := by
    unfold wrapNoOpts
    rw [wrapIterator_ok i it none hit]
    rfl
  have hs := registerHooks_spec { i with
      options := setKey i.options contextKey (getv i.options contextKey) }
  have hb : getv (setKey i.options contextKey (getv i.options contextKey)) beforeEachKey
      = getv i.options beforeEachKey := by
    unfold getv
    rw [getKey_setKey, if_neg beforeEachKey_ne_contextKey]
  have ha : getv (setKey i.options contextKey (getv i.options contextKey)) afterEachKey
      = getv i.options afterEachKey := by
    unfold getv
    rw [getKey_setKey, if_neg afterEachKey_ne_contextKey]
  have he : getv (setKey i.options contextKey (getv i.options contextKey)) errorKey
      = getv i.options errorKey := by
    unfold getv
    rw [getKey_setKey, if_neg errorKey_ne_contextKey]
  refine ⟨?_, ?_, ?_, ?_⟩
  · rw [hw, hs.1]
  · rw [hw]
    have := hs.2.1
    rw [hb] at this
    exact this
  · rw [hw]
    have := hs.2.2.1
    rw [ha] at this
    exact this
  · rw [hw]
    have := hs.2.2.2
    rw [he] at this
    exact this

theorem iterate_wrapNoOpts_spec (it : JSVal) (hit : isFunction it = true)
    (inst : AsyncSimpleIterator) (fb fa fe : Nat)
    (hb : getKey inst.options beforeEachKey = some (JSVal.fn fb))
    (ha : getKey inst.options afterEachKey = some (JSVal.fn fa))
    (he : getKey inst.options errorKey = some (JSVal.fn fe)) (n : Nat) :
    getKey (Nat.iterate (wrapNoOpts it) n inst).options beforeEachKey = some (JSVal.fn fb)
    ∧ getKey (Nat.iterate (wrapNoOpts it) n inst).options afterEachKey = some (JSVal.fn fa)
    ∧ getKey (Nat.iterate (wrapNoOpts it) n inst).options errorKey = some (JSVal.fn fe)
    ∧ (Nat.iterate (wrapNoOpts it) n inst).beforeEachListeners
        = inst.beforeEachListeners ++ List.replicate n (JSVal.fn fb)
    ∧ (Nat.iterate (wrapNoOpts it) n inst).afterEachListeners
        = inst.afterEachListeners ++ List.replicate n (JSVal.fn fa)
    ∧ (Nat.iterate (wrapNoOpts it) n inst).errorListeners
        = inst.errorListeners ++ List.replicate n (JSVal.fn fe) := by
  induction n with
  | zero => exact ⟨hb, ha, he, by simp, by simp, by simp⟩
  | succ n ih =>
      obtain ⟨ihb, iha, ihe, ihbl, ihal, ihel⟩ := ih
      have hstep := wrapNoOpts_step it hit (Nat.iterate (wrapNoOpts it) n inst)
      have hss : Nat.iterate (wrapNoOpts it) (n + 1) inst
          = wrapNoOpts it (Nat.iterate (wrapNoOpts it) n inst) :=
        Function.iterate_succ_apply' (wrapNoOpts it) n inst
      have hgb : getv (Nat.iterate (wrapNoOpts it) n inst).options beforeEachKey
          = JSVal.fn fb := by
        unfold getv
        rw [ihb]
        rfl
      have hga : getv (Nat.iterate (wrapNoOpts it) n inst).options afterEachKey
          = JSVal.fn fa := by
        unfold getv
        rw [iha]
        rfl
      have hge : getv (Nat.iterate (wrapNoOpts it) n inst).options errorKey
          = JSVal.fn fe := by
        unfold getv
        rw [ihe]
        rfl
      refine ⟨?_, ?_, ?_, ?_, ?_, ?_⟩
      · rw [hss, hstep.1, getKey_setKey, if_neg beforeEachKey_ne_contextKey, ihb]
      · rw [hss, hstep.1, getKey_setKey, if_neg afterEachKey_ne_contextKey, iha]
      · rw [hss, hstep.1, getKey_setKey, if_neg errorKey_ne_contextKey, ihe]
      · rw [hss, hstep.2.1, hgb, ihbl]
        simp [List.replicate_succ', List.append_assoc, isFunction]
      · rw [hss, hstep.2.2.1, hga, ihal]
        simp [List.replicate_succ', List.append_assoc, isFunction]
      · rw [hss, hstep.2.2.2, hge, ihel]
        simp [List.replicate_succ', List.append_assoc, isFunction]

/-- C10: a hook function supplied to a `wrapIterator` call is stored in the
instance's persisted settings, so it is registered once by that call and once
more by every subsequent `wrapIterator` call (here: later calls with no
options) — after `n` further calls the listener list holds the function
`n + 1` times, not once overall. -/
theorem hook_persists_and_reregisters (inst : AsyncSimpleIterator) (it it₂ : JSVal)
    (o : JSObj) (fb fa fe : Nat) (inst₁ : AsyncSimpleIterator)
    (hit₂ : isFunction it₂ = true)
    (hb : lookupLast o beforeEachKey = some (JSVal.fn fb))
    (ha : lookupLast o afterEachKey = some (JSVal.fn fa))
    (he : lookupLast o errorKey = some (JSVal.fn fe))
    (h1 : wrapIterator inst it (some o) = Except.ok inst₁) :
    getKey inst₁.options beforeEachKey = some (JSVal.fn fb)
    ∧ getKey inst₁.options afterEachKey = some (JSVal.fn fa)
    ∧ getKey inst₁.options errorKey = some (JSVal.fn fe)
    ∧ inst₁.beforeEachListeners = inst.beforeEachListeners ++ [JSVal.fn fb]
    ∧ inst₁.afterEachListeners = inst.afterEachListeners ++ [JSVal.fn fa]
    ∧ inst₁.errorListeners = inst.errorListeners ++ [JSVal.fn fe]
    ∧ ∀ n : Nat,
        (getKey (Nat.iterate (wrapNoOpts it₂) n inst₁).options beforeEachKey
            = some (JSVal.fn fb)
          ∧ (Nat.iterate (wrapNoOpts it₂) n inst₁).beforeEachListeners
            = inst₁.beforeEachListeners ++ List.replicate n (JSVal.fn fb))
        ∧ (getKey (Nat.iterate (wrapNoOpts it₂) n inst₁).options afterEachKey
            = some (JSVal.fn fa)
          ∧ (Nat.iterate (wrapNoOpts it₂) n inst₁).afterEachListeners
            = inst₁.afterEachListeners ++ List.replicate n (JSVal.fn fa))
        ∧ (getKey (Nat.iterate (wrapNoOpts it₂) n inst₁).options errorKey
            = some (JSVal.fn fe)
          ∧ (Nat.iterate (wrapNoOpts it₂) n inst₁).errorListeners
            = inst₁.errorListeners ++ List.replicate n (JSVal.fn fe)) := by
  have hkb : getKey inst₁.options beforeEachKey = some (JSVal.fn fb) := by
    rw [getKey_wrapped_options inst it (some o) inst₁ h1 beforeEachKey
      beforeEachKey_ne_contextKey, getKey_mergeCallOptions_some, hb]
    rfl
  have hka : getKey inst₁.options afterEachKey = some (JSVal.fn fa) := by
    rw [getKey_wrapped_options inst it (some o) inst₁ h1 afterEachKey
      afterEachKey_ne_contextKey, getKey_mergeCallOptions_some, ha]
    rfl
  have hke : getKey inst₁.options errorKey = some (JSVal.fn fe) := by
    rw [getKey_wrapped_options inst it (some o) inst₁ h1 errorKey
      errorKey_ne_contextKey, getKey_mergeCallOptions_some, he]
    rfl
  have hgb : getv inst₁.options beforeEachKey = JSVal.fn fb := by
    unfold getv
    rw [hkb]
    rfl
  have hga : getv inst₁.options afterEachKey = JSVal.fn fa := by
    unfold getv
    rw [hka]
    rfl
  have hge : getv inst₁.options errorKey = JSVal.fn fe := by
    unfold getv
    rw [hke]
    rfl
  have hl := wrapped_listeners inst it (some o) inst₁ h1
  refine ⟨hkb, hka, hke, ?_, ?_, ?_, ?_⟩
  · rw [hl.1, hgb]
    simp [isFunction]
  · rw [hl.2.1, hga]
    simp [isFunction]
  · rw [hl.2.2, hge]
    simp [isFunction]
  · intro n
    have hi := iterate_wrapNoOpts_spec it₂ hit₂ inst₁ fb fa fe hkb hka hke n
    exact ⟨⟨hi.1, hi.2.2.2.1⟩, ⟨hi.2.1, hi.2.2.2.2.1⟩, ⟨hi.2.2.1, hi.2.2.2.2.2⟩⟩

/-- Witness for C10 at concrete inputs: one decoration call supplies all
three hooks; two further no-option calls register the same `beforeEach`
function two more times. -/
theorem hook_persists_and_reregisters_witness :
    isFunction (JSVal.fn 9) = true
    ∧ lookupLast c10o beforeEachKey = some (JSVal.fn 1)
    ∧ lookupLast c10o afterEachKey = some (JSVal.fn 2)
    ∧ lookupLast c10o errorKey = some (JSVal.fn 3)
    ∧ wrapIterator (construct none) (JSVal.fn 0) (some c10o) = Except.ok c10inst1
    ∧ c10inst1.beforeEachListeners = (construct none).beforeEachListeners ++ [JSVal.fn 1]
    ∧ (Nat.iterate (wrapNoOpts (JSVal.fn 9)) 2 c10inst1).beforeEachListeners
        = c10inst1.beforeEachListeners ++ List.replicate 2 (JSVal.fn 1) := by
  have h := hook_persists_and_reregisters (construct none) (JSVal.fn 0) (JSVal.fn 9)
    c10o 1 2 3 c10inst1 rfl rfl rfl rfl rfl
  exact ⟨rfl, rfl, rfl, rfl, rfl, h.2.2.2.1, (h.2.2.2.2.2.2 2).1.2⟩

/-- C1: when settle mode is on and the work function reports a non-null error
`e` for element `(v, k)`, the decorated function's last observable effect is
calling the outer completion with `(null, result)` — the error is not on the
completion channel — while every registered `error` listener was fired with
the original error `e` before the completion call. -/
theorem settle_true_swallows_error (inst : AsyncSimpleIterator)
    (work : JSVal → JSVal → Option JSVal × JSVal) (v k e r : JSVal)
    (hs : settleOf inst = true) (hw : work v k = (some e, r)) :
    (decoratedRun inst work v k).getLast? = some (Event.completionCall none r)
    ∧ ∀ f ∈ inst.errorListeners,
        Event.errorFire f e r v k ∈ (decoratedRun inst work v k).dropLast := by
  have ht : decoratedRun inst work v k
      = (inst.beforeEachListeners.map (fun f => Event.beforeEachFire f v k)
          ++ Event.workStart v k
            :: (inst.afterEachListeners.map (fun f => Event.afterEachFire f (some e) r v k)
              ++ inst.errorListeners.map (fun f => Event.errorFire f e r v k)))
        ++ [Event.completionCall none r] := by
    rw [decoratedRun_err_eq inst work v k e r hw, hs]
    rfl
  constructor
  · rw [ht, List.getLast?_concat]
  · intro f hf
    rw [ht, List.dropLast_concat]
    refine List.mem_append_right _ (List.mem_cons_of_mem _ (List.mem_append_right _ ?_))
    exact List.mem_map_of_mem _ hf

/-- Witness for C1 on a concrete settle-mode instance with one `error`
listener and an always-failing work function. -/
theorem settle_true_swallows_error_witness :
    settleOf cInstSettleTrue = true
    ∧ cWork (JSVal.num 1) (JSVal.str ("dev")) = (some (JSVal.str ("boom")), JSVal.undef)
    ∧ (decoratedRun cInstSettleTrue cWork (JSVal.num 1) (JSVal.str ("dev"))).getLast?
        = some (Event.completionCall none JSVal.undef)
    ∧ Event.errorFire (JSVal.fn 7) (JSVal.str ("boom")) JSVal.undef (JSVal.num 1)
        (JSVal.str ("dev"))
        ∈ (decoratedRun cInstSettleTrue cWork (JSVal.num 1) (JSVal.str ("dev"))).dropLast := by
  have h := settle_true_swallows_error cInstSettleTrue cWork (JSVal.num 1)
    (JSVal.str ("dev")) (JSVal.str ("boom")) JSVal.undef rfl rfl
  exact ⟨rfl, rfl, h.1, h.2 (JSVal.fn 7) (by simp [cInstSettleTrue])⟩

/-- C2: when settle mode is off and the work function reports a non-null
error `e` for element `(v, k)`, the decorated function calls the outer
completion with that identical error value `e` unchanged as its first
argument (and the work function's result as the second). -/
theorem settle_false_propagates_error (inst : AsyncSimpleIterator)
    (work : JSVal → JSVal → Option JSVal × JSVal) (v k e r : JSVal)
    (hs : settleOf inst = false) (hw : work v k = (some e, r)) :
    (decoratedRun inst work v k).getLast? = some (Event.completionCall (some e) r) := by
  have ht : decoratedRun inst work v k
      = (inst.beforeEachListeners.map (fun f => Event.beforeEachFire f v k)
          ++ Event.workStart v k
            :: (inst.afterEachListeners.map (fun f => Event.afterEachFire f (some e) r v k)
              ++ inst.errorListeners.map (fun f => Event.errorFire f e r v k)))
        ++ [Event.completionCall (some e) r] := by
    rw [decoratedRun_err_eq inst work v k e r hw, hs]
    rfl
  rw [ht, List.getLast?_concat]

/-- Witness for C2 on the concrete settle-off instance. -/
theorem settle_false_propagates_error_witness :
    settleOf cInstSettleFalse = false
    ∧ cWork (JSVal.num 1) (JSVal.str ("dev")) = (some (JSVal.str ("boom")), JSVal.undef)
    ∧ (decoratedRun cInstSettleFalse cWork (JSVal.num 1) (JSVal.str ("dev"))).getLast?
        = some (Event.completionCall (some (JSVal.str ("boom"))) JSVal.undef) :=
  ⟨rfl, rfl,
   settle_false_propagates_error cInstSettleFalse cWork (JSVal.num 1)
     (JSVal.str ("dev")) (JSVal.str ("boom")) JSVal.undef rfl rfl⟩

/-- C8: every non-null error `e` delivered by the work function is passed to
every registered `afterEach` listener and every registered `error` listener
strictly before the outer completion call (which is the final element of the
trace), whatever the settle setting — no error bypasses the hooks. -/
theorem workerror_passes_hooks (inst : AsyncSimpleIterator)
    (work : JSVal → JSVal → Option JSVal × JSVal) (v k e r : JSVal)
    (hw : work v k = (some e, r)) :
    (∀ f ∈ inst.afterEachListeners,
        Event.afterEachFire f (some e) r v k ∈ (decoratedRun inst work v k).dropLast)
    ∧ ∀ f ∈ inst.errorListeners,
        Event.errorFire f e r v k ∈ (decoratedRun inst work v k).dropLast := by
  have ht := decoratedRun_err_eq inst work v k e r hw
  constructor
  · intro f hf
    rw [ht, List.dropLast_concat]
    refine List.mem_append_right _ (List.mem_cons_of_mem _ (List.mem_append_left _ ?_))
    exact List.mem_map_of_mem _ hf
  · intro f hf
    rw [ht, List.dropLast_concat]
    refine List.mem_append_right _ (List.mem_cons_of_mem _ (List.mem_append_right _ ?_))
    exact List.mem_map_of_mem _ hf

/-- Witness for C8 on the concrete settle-off instance holding one
`afterEach` and one `error` listener. -/
theorem workerror_passes_hooks_witness :
    cWork (JSVal.num 1) (JSVal.str ("dev")) = (some (JSVal.str ("boom")), JSVal.undef)
    ∧ Event.afterEachFire (JSVal.fn 6) (some (JSVal.str ("boom"))) JSVal.undef
        (JSVal.num 1) (JSVal.str ("dev"))
        ∈ (decoratedRun cInstSettleFalse cWork (JSVal.num 1) (JSVal.str ("dev"))).dropLast
    ∧ Event.errorFire (JSVal.fn 7) (JSVal.str ("boom")) JSVal.undef (JSVal.num 1)
        (JSVal.str ("dev"))
        ∈ (decoratedRun cInstSettleFalse cWork (JSVal.num 1) (JSVal.str ("dev"))).dropLast := by
  have h := workerror_passes_hooks cInstSettleFalse cWork (JSVal.num 1)
    (JSVal.str ("dev")) (JSVal.str ("boom")) JSVal.undef rfl
  exact ⟨rfl, h.1 (JSVal.fn 6) (by simp [cInstSettleFalse]),
    h.2 (JSVal.fn 7) (by simp [cInstSettleFalse])⟩

/-- C4: in every invocation of the decorated function, all `beforeEach`
firings precede the work function's start, all `afterEach` firings precede
every `error` firing, all `error` firings precede the outer completion call,
and the completion call is the last observable effect of the iteration (the
trace ends with it and no completion occurs earlier). -/
theorem iteration_event_order (inst : AsyncSimpleIterator)
    (work : JSVal → JSVal → Option JSVal × JSVal) (v k : JSVal) :
    firesBefore (decoratedRun inst work v k) isBeforeEachFire isWorkStart
    ∧ firesBefore (decoratedRun inst work v k) isAfterEachFire isErrorFire
    ∧ firesBefore (decoratedRun inst work v k) isErrorFire isCompletionCall
    ∧ ∃ pre err res,
        decoratedRun inst work v k = pre ++ [Event.completionCall err res]
          ∧ ∀ x ∈ pre, isCompletionCall x = false := by
  rcases hw : work v k with ⟨err, res⟩
  cases err with
  | some e =>
      have ht := decoratedRun_err_eq inst work v k e res hw
      refine ⟨?_, ?_, ?_, ?_⟩
      · have h1 : decoratedRun inst work v k
            = inst.beforeEachListeners.map (fun f => Event.beforeEachFire f v k)
              ++ (Event.workStart v k
                :: ((inst.afterEachListeners.map
                      (fun f => Event.afterEachFire f (some e) res v k)
                    ++ inst.errorListeners.map (fun f => Event.errorFire f e res v k))
                  ++ [Event.completionCall (if settleOf inst then none else some e) res])) := by
          rw [ht]
          simp [List.append_assoc]
        rw [h1]
        apply firesBefore_append
        · intro x hx
          rcases List.mem_cons.mp hx with rfl | hx'
          · rfl
          · rcases List.mem_append.mp hx' with hx2 | hx3
            · rcases List.mem_append.mp hx2 with hA | hE
              · exact (after_seg_classify _ _ _ _ _ _ hA).1
              · exact (error_seg_classify _ _ _ _ _ _ hE).1
            · rcases List.mem_singleton.mp hx3 with rfl
              rfl
        · intro x hx
          exact (before_seg_classify _ _ _ x hx).1
      · have h2 : decoratedRun inst work v k
            = (inst.beforeEachListeners.map (fun f => Event.beforeEachFire f v k)
                ++ Event.workStart v k
                  :: inst.afterEachListeners.map
                    (fun f => Event.afterEachFire f (some e) res v k))
              ++ (inst.errorListeners.map (fun f => Event.errorFire f e res v k)
                ++ [Event.completionCall (if settleOf inst then none else some e) res]) := by
          rw [ht]
          simp [List.append_assoc]
        rw [h2]
        apply firesBefore_append
        · intro x hx
          rcases List.mem_append.mp hx with hE | hx3
          · exact (error_seg_classify _ _ _ _ _ _ hE).2.2.1
          · rcases List.mem_singleton.mp hx3 with rfl
            rfl
        · intro x hx
          rcases List.mem_append.mp hx with hB | hx'
          · exact (before_seg_classify _ _ _ _ hB).2.2.1
          · rcases List.mem_cons.mp hx' with rfl | hA
            · rfl
            · exact (after_seg_classify _ _ _ _ _ _ hA).2.2.1
      · rw [ht]
        apply firesBefore_append
        · intro x hx
          rcases List.mem_singleton.mp hx with rfl
          rfl
        · intro x hx
          rcases List.mem_append.mp hx with hB | hx'
          · exact (before_seg_classify _ _ _ _ hB).2.2.2
          · rcases List.mem_cons.mp hx' with rfl | hx2
            · rfl
            · rcases List.mem_append.mp hx2 with hA | hE
              · exact (after_seg_classify _ _ _ _ _ _ hA).2.2.2
              · exact (error_seg_classify _ _ _ _ _ _ hE).2.2.2
      · refine ⟨_, _, _, ht, ?_⟩
        intro x hx
        rcases List.mem_append.mp hx with hB | hx'
        · exact (before_seg_classify _ _ _ _ hB).2.2.2
        · rcases List.mem_cons.mp hx' with rfl | hx2
          · rfl
          · rcases List.mem_append.mp hx2 with hA | hE
            · exact (after_seg_classify _ _ _ _ _ _ hA).2.2.2
            · exact (error_seg_classify _ _ _ _ _ _ hE).2.2.2
  | none =>
      have ht := decoratedRun_noerr_eq inst work v k res hw
      refine ⟨?_, ?_, ?_, ?_⟩
      · have h1 : decoratedRun inst work v k
            = inst.beforeEachListeners.map (fun f => Event.beforeEachFire f v k)
              ++ (Event.workStart v k
                :: (inst.afterEachListeners.map (fun f => Event.afterEachFire f none res v k)
                  ++ [Event.completionCall none res])) := by
          rw [ht]
          simp [List.append_assoc]
        rw [h1]
        apply firesBefore_append
        · intro x hx
          rcases List.mem_cons.mp hx with rfl | hx'
          · rfl
          · rcases List.mem_append.mp hx' with hA | hx3
            · exact (after_seg_classify _ _ _ _ _ _ hA).1
            · rcases List.mem_singleton.mp hx3 with rfl
              rfl
        · intro x hx
          exact (before_seg_classify _ _ _ x hx).1
      · rw [ht]
        apply firesBefore_append
        · intro x hx
          rcases List.mem_singleton.mp hx with rfl
          rfl
        · intro x hx
          rcases List.mem_append.mp hx with hB | hx'
          · exact (before_seg_classify _ _ _ _ hB).2.2.1
          · rcases List.mem_cons.mp hx' with rfl | hA
            · rfl
            · exact (after_seg_classify _ _ _ _ _ _ hA).2.2.1
      · rw [ht]
        apply firesBefore_append
        · intro x hx
          rcases List.mem_singleton.mp hx with rfl
          rfl
        · intro x hx
          rcases List.mem_append.mp hx with hB | hx'
          · exact (before_seg_classify _ _ _ _ hB).2.2.2
          · rcases List.mem_cons.mp hx' with rfl | hA
            · rfl
            · exact (after_seg_classify _ _ _ _ _ _ hA).2.2.2
      · refine ⟨_, _, _, ht, ?_⟩
        intro x hx
        rcases List.mem_append.mp hx with hB | hx'
        · exact (before_seg_classify _ _ _ _ hB).2.2.2
        · rcases List.mem_cons.mp hx' with rfl | hA
          · rfl
          · exact (after_seg_classify _ _ _ _ _ _ hA).2.2.2
